import Mathlib

/-!
Verification of the AVX2 `Vectorized<float>` lane abstraction and the blocked
small-matrix transpose microkernel of `aten/src/ATen/cpu/vec/vec256/vec256_float.h`,
together with the oneDNN interop shim of
`torch/csrc/inductor/aoti_torch/onednn_tensor.cpp`.

Shallow embedding conventions:
* A lane of `Vectorized<float>` is the 32-bit pattern of an IEEE-754 binary32
  value, held as a natural number below `2 ^ 32`.  The claims under
  verification concern comparison predicates, NaN routing, blends and memory
  movement; none of them involves floating-point rounding, so the bit-pattern
  model with the IEEE sign-magnitude order key (`val32`) is exact.
* A `__m256` register is `Vec8 α = Fin 8 → α`; for the float operations
  `α = Nat`, a lane being a 32-bit pattern.  The transpose kernel, which only moves lane values, is
  embedded polymorphically in the element type.
* Memory is a total function `Nat → α` indexed in float-sized units; pointer
  arithmetic of the source becomes explicit offsets.
* `TORCH_CHECK` failure is `Option`/`Except` failure: a failing check yields
  no post-state, matching the C++ behaviour of throwing before any write.
-/

namespace ATVec

/-- Exponent field (bits 30..23). -/
def expBits (x : Nat) : Nat := x / 2 ^ 23 % 2 ^ 8

/-- Mantissa field (bits 22..0). -/
def mantBits (x : Nat) : Nat := x % 2 ^ 23

/-- Sign bit (bit 31). -/
def signBit (x : Nat) : Nat := x / 2 ^ 31 % 2

/-- Magnitude: the pattern with the sign bit cleared. -/
def magBits (x : Nat) : Nat := x % 2 ^ 31

/-- The pattern encodes a NaN: exponent all ones, nonzero mantissa. -/
def isNaN32 (x : Nat) : Prop := expBits x = 255 ∧ mantBits x ≠ 0

instance (x : Nat) : Decidable (isNaN32 x) := by unfold isNaN32; infer_instance

/-- The pattern encodes `+inf` or `-inf`: exponent all ones, zero mantissa. -/
def isInf32 (x : Nat) : Prop := expBits x = 255 ∧ mantBits x = 0

instance (x : Nat) : Decidable (isInf32 x) := by unfold isInf32; infer_instance

/-- Numeric order key of a non-NaN binary32 pattern: IEEE-754 comparison on
binary32 (including denormals, infinities and the two zeros) is exactly the
sign-magnitude integer order on the bit patterns, with `+0.0` (`0x00000000`)
and `-0.0` (`0x80000000`) both mapping to key `0`.  Two non-NaN lanes are
IEEE-equal iff their keys are equal, and IEEE-less iff key < key. -/
def val32 (x : Nat) : Int :=
  if signBit x = 1 then -(magBits x : Int) else (magBits x : Int)

/-- The all-ones 32-bit mask produced by a true vector comparison. -/
def ones32 : Nat := 2 ^ 32 - 1

/-- One lane of `_mm256_cmp_ps` with predicate `_CMP_EQ_OQ` (ordered, quiet):
false whenever either operand is NaN. -/
def cmp_eq_oq (a b : Nat) : Nat :=
  if ¬ isNaN32 a ∧ ¬ isNaN32 b ∧ val32 a = val32 b then ones32 else 0

/-- One lane of `_mm256_cmp_ps` with predicate `_CMP_LT_OQ`. -/
def cmp_lt_oq (a b : Nat) : Nat :=
  if ¬ isNaN32 a ∧ ¬ isNaN32 b ∧ val32 a < val32 b then ones32 else 0

/-- One lane of `_mm256_cmp_ps` with predicate `_CMP_LE_OQ`. -/
def cmp_le_oq (a b : Nat) : Nat :=
  if ¬ isNaN32 a ∧ ¬ isNaN32 b ∧ val32 a ≤ val32 b then ones32 else 0

/-- One lane of `_mm256_cmp_ps` with predicate `_CMP_GT_OQ`. -/
def cmp_gt_oq (a b : Nat) : Nat :=
  if ¬ isNaN32 a ∧ ¬ isNaN32 b ∧ val32 b < val32 a then ones32 else 0

/-- One lane of `_mm256_cmp_ps` with predicate `_CMP_GE_OQ`. -/
def cmp_ge_oq (a b : Nat) : Nat :=
  if ¬ isNaN32 a ∧ ¬ isNaN32 b ∧ val32 b ≤ val32 a then ones32 else 0

/-- One lane of `_mm256_cmp_ps` with predicate `_CMP_NEQ_UQ` (unordered,
quiet): true whenever either operand is NaN. -/
def cmp_neq_uq (a b : Nat) : Nat :=
  if isNaN32 a ∨ isNaN32 b ∨ ¬ val32 a = val32 b then ones32 else 0

/-- One lane of `_mm256_cmp_ps` with predicate `_CMP_UNORD_Q`. -/
def cmp_unord_q (a b : Nat) : Nat :=
  if isNaN32 a ∨ isNaN32 b then ones32 else 0

/-- One lane of `_mm256_max_ps`: `a > b ? a : b`, returning the second
operand when the operands are unordered or equal (the hardware behaviour). -/
def max_ps_lane (a b : Nat) : Nat :=
  if ¬ isNaN32 a ∧ ¬ isNaN32 b ∧ val32 b < val32 a then a else b

/-- One lane of `_mm256_min_ps`: `a < b ? a : b`, returning the second
operand when the operands are unordered or equal (the hardware behaviour). -/
def min_ps_lane (a b : Nat) : Nat :=
  if ¬ isNaN32 a ∧ ¬ isNaN32 b ∧ val32 a < val32 b then a else b

/-- A 256-bit register holding 8 lanes. -/
abbrev Vec8 (α : Type) := Fin 8 → α

/-- `Vectorized<float>::operator==` (`_CMP_EQ_OQ`). -/
def cmp_eq (a b : Vec8 Nat) : Vec8 Nat := fun i => cmp_eq_oq (a i) (b i)

/-- `Vectorized<float>::operator!=` (`_CMP_NEQ_UQ`). -/
def cmp_ne (a b : Vec8 Nat) : Vec8 Nat := fun i => cmp_neq_uq (a i) (b i)

/-- `Vectorized<float>::operator<` (`_CMP_LT_OQ`). -/
def cmp_lt (a b : Vec8 Nat) : Vec8 Nat := fun i => cmp_lt_oq (a i) (b i)

/-- `Vectorized<float>::operator<=` (`_CMP_LE_OQ`). -/
def cmp_le (a b : Vec8 Nat) : Vec8 Nat := fun i => cmp_le_oq (a i) (b i)

/-- `Vectorized<float>::operator>` (`_CMP_GT_OQ`). -/
def cmp_gt (a b : Vec8 Nat) : Vec8 Nat := fun i => cmp_gt_oq (a i) (b i)

/-- `Vectorized<float>::operator>=` (`_CMP_GE_OQ`). -/
def cmp_ge (a b : Vec8 Nat) : Vec8 Nat := fun i => cmp_ge_oq (a i) (b i)

/-- `operator&` on `Vectorized<float>` (`_mm256_and_ps`). -/
def and_ps (a b : Vec8 Nat) : Vec8 Nat := fun i => a i &&& b i

/-- `operator|` on `Vectorized<float>` (`_mm256_or_ps`). -/
def or_ps (a b : Vec8 Nat) : Vec8 Nat := fun i => a i ||| b i

/-- `maximum<float>`: hardware max OR-ed with the unordered mask, so that a
NaN in either operand forces the all-ones (NaN) pattern into the lane. -/
def maximum (a b : Vec8 Nat) : Vec8 Nat :=
  or_ps (fun i => max_ps_lane (a i) (b i)) (fun i => cmp_unord_q (a i) (b i))

/-- `minimum<float>`: hardware min OR-ed with the unordered mask. -/
def minimum (a b : Vec8 Nat) : Vec8 Nat :=
  or_ps (fun i => min_ps_lane (a i) (b i)) (fun i => cmp_unord_q (a i) (b i))

/-- The bit pattern of the float `1.0f`. -/
def float_one_bits : Nat := 0x3F800000

/-- `Vectorized<float>::eq`: the `==` mask AND-ed with broadcast `1.0f`. -/
def eq (a b : Vec8 Nat) : Vec8 Nat :=
  and_ps (cmp_eq a b) (fun _ => float_one_bits)

/-- `Vectorized<float>::blend<mask>` (`_mm256_blend_ps`): lane `i` comes from
`b` when bit `i` of the compile-time mask is set, from `a` otherwise. -/
def blend (mask : Nat) (a b : Vec8 Nat) : Vec8 Nat :=
  fun i => if Nat.testBit mask i.val then b i else a i

/-- `Vectorized<float>::set(a, b, count)`: the switch over `count` (an
`int64_t`) dispatching to one of the compile-time blend masks, with every
other value of `count` falling through to `return b`. -/
def set (a b : Vec8 Nat) (count : Int) : Vec8 Nat :=
  if count = 0 then a
  else if count = 1 then blend 1 a b
  else if count = 2 then blend 3 a b
  else if count = 3 then blend 7 a b
  else if count = 4 then blend 15 a b
  else if count = 5 then blend 31 a b
  else if count = 6 then blend 63 a b
  else if count = 7 then blend 127 a b
  else b

/-- `Vectorized<float>::loadu(ptr, count)`: a full-width load when
`count == 8`; otherwise a zero-initialised 8-float temporary receives a copy
of the first `count` source elements and is loaded full-width, so lanes
`[count, 8)` are exactly the float `+0.0` (pattern 0). -/
def loadu (src : Nat → Nat) (count : Nat) : Vec8 Nat :=
  if count = 8 then fun i => src i.val
  else fun i => if i.val < count then src i.val else 0

/-- `Vectorized<float>::store(ptr, count)`: a full-width store when
`count == 8`; a copy of the first `count` lanes when `0 < count`; no write
at all otherwise.  `count` is an `int64_t`, so it is embedded as `Int`.
(The out-of-contract region `8 < count`, where the C++ `memcpy` would read
past the 8-float temporary, is modelled as writing the 8 lanes.) -/
def store (v : Vec8 Nat) (mem : Nat → Nat) (count : Int) : Nat → Nat :=
  fun p =>
    if count = 8 then
      if h : p < 8 then v ⟨p, h⟩ else mem p
    else if 0 < count then
      if h : p < 8 ∧ (p : Int) < count then v ⟨p, h.1⟩ else mem p
    else mem p

/-- One lane of `values - values` (`_mm256_sub_ps(x, x)`), by the exact IEEE
special cases: a finite lane (any sign, denormals included) subtracts to
`+0.0` exactly; an infinite lane yields the hardware default quiet NaN
`0xFFC00000`; a NaN lane propagates quieted (mantissa quiet bit 22 set). -/
def sub_ps_self_lane (x : Nat) : Nat :=
  if isNaN32 x then x ||| 2 ^ 22
  else if isInf32 x then 0xFFC00000
  else 0

/-- The four bits `_mm256_movemask_epi8` extracts from one 32-bit lane: the
top bit of each of its four bytes (bits 7, 15, 23 and 31). -/
def byteTopBits (x : Nat) : Nat :=
  x / 2 ^ 7 % 2 + 2 * (x / 2 ^ 15 % 2) + 4 * (x / 2 ^ 23 % 2) + 8 * (x / 2 ^ 31 % 2)

/-- `_mm256_movemask_epi8` on a register reinterpreted as 32 bytes: bit
`4 * i + b` of the result is the top bit of byte `b` of lane `i`. -/
def movemask_epi8 (v : Vec8 Nat) : Nat :=
  byteTopBits (v 0) + 16 * (byteTopBits (v 1) + 16 * (byteTopBits (v 2) +
    16 * (byteTopBits (v 3) + 16 * (byteTopBits (v 4) + 16 * (byteTopBits (v 5) +
      16 * (byteTopBits (v 6) + 16 * byteTopBits (v 7)))))))

/-- `Vectorized<float>::has_inf_nan`: compute `values - values`, take the
byte-wise movemask and test it against `0x77777777` (which discards each
lane's sign bit, the top bit of byte 3). -/
def has_inf_nan (v : Vec8 Nat) : Bool :=
  (movemask_epi8 (fun i => sub_ps_self_lane (v i)) &&& 0x77777777) != 0

/-- `_mm256_unpacklo_ps`: interleave the low pairs of each 128-bit half:
`[a0, b0, a1, b1, a4, b4, a5, b5]`. -/
def unpacklo_ps {α : Type} (a b : Vec8 α) : Vec8 α :=
  fun l => [a 0, b 0, a 1, b 1, a 4, b 4, a 5, b 5].getD l.val (a 0)

/-- `_mm256_unpackhi_ps`: interleave the high pairs of each 128-bit half:
`[a2, b2, a3, b3, a6, b6, a7, b7]`. -/
def unpackhi_ps {α : Type} (a b : Vec8 α) : Vec8 α :=
  fun l => [a 2, b 2, a 3, b 3, a 6, b 6, a 7, b 7].getD l.val (a 2)

/-- `_mm256_shuffle_ps` with immediate `imm`: within each 128-bit half,
lanes 0 and 1 select from `a` and lanes 2 and 3 from `b`, each picking the
lane of its source half named by the matching 2-bit field of `imm`. -/
def shuffle_ps {α : Type} (a b : Vec8 α) (imm : Nat) : Vec8 α :=
  fun l =>
    if l.val % 4 < 2 then
      a ⟨4 * (l.val / 4) + imm / 4 ^ (l.val % 4) % 4, by omega⟩
    else
      b ⟨4 * (l.val / 4) + imm / 4 ^ (l.val % 4) % 4, by omega⟩

/-- `_mm256_permute2f128_ps` with immediate `imm` (no zeroing bits): each
128-bit half of the result is half `ctrl % 2` of `a` (when `ctrl < 2`) or of
`b` (when `2 ≤ ctrl`), where `ctrl` is the low 2 bits of the result half's
control nibble of `imm`. -/
def permute2f128_ps {α : Type} (a b : Vec8 α) (imm : Nat) : Vec8 α :=
  fun l =>
    if imm / 16 ^ (l.val / 4) % 4 < 2 then
      a ⟨4 * (imm / 16 ^ (l.val / 4) % 4 % 2) + l.val % 4, by omega⟩
    else
      b ⟨4 * (imm / 16 ^ (l.val / 4) % 4 % 2) + l.val % 4, by omega⟩

/-- The load phase of `transpose_mxn_8x8`: rows `i < M` are loaded from
`src + i * ld_src` — full `_mm256_loadu_ps` when `N == 8`, otherwise
`_mm256_maskz_loadu_ps` with mask `(1 << N) - 1` (lanes with a clear mask
bit become zero, i.e. `z`) — and rows `M ≤ i < 8` are `_mm256_setzero_ps`. -/
def loadPhase {α : Type} (src : Nat → α) (src_off ld_src : Nat) (M N : Nat)
    (z : α) : Fin 8 → Vec8 α :=
  fun r =>
    if r.val < M then
      if N = 8 then fun c => src (src_off + r.val * ld_src + c.val)
      else fun c =>
        if Nat.testBit (2 ^ N - 1) c.val then src (src_off + r.val * ld_src + c.val)
        else z
    else fun _ => z

/-- The 32-bit unpack/interleave phase: for `i < (M + 1) / 2` rows `2i` and
`2i + 1` are `unpacklo`/`unpackhi` of input rows `2i` and `2i + 1`; the
remaining rows are zeroed. -/
def unpackPhase {α : Type} (M : Nat) (input : Fin 8 → Vec8 α) (z : α) :
    Fin 8 → Vec8 α :=
  fun k =>
    if k.val < 2 * ((M + 1) / 2) then
      if k.val % 2 = 0 then
        unpacklo_ps (input ⟨2 * (k.val / 2), by omega⟩) (input ⟨2 * (k.val / 2) + 1, by omega⟩)
      else
        unpackhi_ps (input ⟨2 * (k.val / 2), by omega⟩) (input ⟨2 * (k.val / 2) + 1, by omega⟩)
    else fun _ => z

/-- The 32-bit shuffle phase: for `i < (M + 3) / 4` rows `4i .. 4i + 3` are
rebuilt from `temp` rows `4i .. 4i + 3` with `_mm256_shuffle_ps` immediates
`0x44`/`0xee`; the loop leaves every other entry of the reused `input`
array at its load-phase value. -/
def shufflePhase {α : Type} (M : Nat) (temp input : Fin 8 → Vec8 α) :
    Fin 8 → Vec8 α :=
  fun k =>
    if k.val < 4 * ((M + 3) / 4) then
      if k.val % 4 = 0 then
        shuffle_ps (temp ⟨4 * (k.val / 4), by omega⟩) (temp ⟨4 * (k.val / 4) + 2, by omega⟩) 0x44
      else if k.val % 4 = 1 then
        shuffle_ps (temp ⟨4 * (k.val / 4), by omega⟩) (temp ⟨4 * (k.val / 4) + 2, by omega⟩) 0xee
      else if k.val % 4 = 2 then
        shuffle_ps (temp ⟨4 * (k.val / 4) + 1, by omega⟩) (temp ⟨4 * (k.val / 4) + 3, by omega⟩) 0x44
      else
        shuffle_ps (temp ⟨4 * (k.val / 4) + 1, by omega⟩) (temp ⟨4 * (k.val / 4) + 3, by omega⟩) 0xee
    else input k

/-- The 128-bit permute phase: for `i < N`, row `i` combines rows `input2[i]`
and `input2[i ± 4]` with `_mm256_permute2f128_ps` immediates `0x02`/`0x13`;
the loop leaves the other entries of the reused `temp` array unchanged. -/
def permutePhase {α : Type} (N : Nat) (input2 temp : Fin 8 → Vec8 α) :
    Fin 8 → Vec8 α :=
  fun k =>
    if k.val < N then
      if h : k.val < 4 then
        permute2f128_ps (input2 ⟨4 + k.val, by omega⟩) (input2 k) 0x02
      else
        permute2f128_ps (input2 k) (input2 ⟨k.val - 4, by omega⟩) 0x13
    else temp k

/-- The register network of `transpose_mxn_8x8` between the loads and the
stores: unpack, shuffle, then permute. -/
def transposeNet {α : Type} (M N : Nat) (input : Fin 8 → Vec8 α) (z : α) :
    Fin 8 → Vec8 α :=
  permutePhase N (shufflePhase M (unpackPhase M input z) input) (unpackPhase M input z)

/-- One row store of the store phase: `_mm256_storeu_ps` when `M == 8`,
otherwise `_mm256_mask_storeu_ps` with mask `(1 << M) - 1` (only lanes with
a set mask bit are written). -/
def storeRow {α : Type} (mem : Nat → α) (base M : Nat) (v : Vec8 α) : Nat → α :=
  if M = 8 then
    fun p => if h : base ≤ p ∧ p - base < 8 then v ⟨p - base, h.2⟩ else mem p
  else
    fun p =>
      if h : base ≤ p ∧ p - base < 8 ∧ Nat.testBit (2 ^ M - 1) (p - base) then
        v ⟨p - base, h.2.1⟩
      else mem p

/-- The store phase of `transpose_mxn_8x8`: rows `0 ≤ i < n` of `rows` are
stored in loop order at `dst + dst_off + i * ld_dst`. -/
def storePhase {α : Type} (dst : Nat → α) (dst_off ld_dst M : Nat)
    (rows : Fin 8 → Vec8 α) : Nat → Nat → α
  | 0 => dst
  | n + 1 =>
    if h : n < 8 then
      storeRow (storePhase dst dst_off ld_dst M rows n) (dst_off + n * ld_dst) M (rows ⟨n, h⟩)
    else storePhase dst dst_off ld_dst M rows n

/-- `transpose_mxn_8x8(src, ld_src, dst, ld_dst, M, N)` for `float`: after
`TORCH_CHECK(M <= 8 && N <= 8, ...)` it loads up to 8 rows, runs the
unpack/shuffle/permute register network and stores `N` rows.  The C++
pointers become the offsets `src_off`/`dst_off`; failure of the check is
`none` (the exception leaves the destination untouched). -/
def transpose_mxn_8x8 {α : Type} (src : Nat → α) (src_off ld_src : Nat)
    (dst : Nat → α) (dst_off ld_dst : Nat) (M N : Nat) (z : α) :
    Option (Nat → α) :=
  if M ≤ 8 ∧ N ≤ 8 then
    some (storePhase dst dst_off ld_dst M
      (transposeNet M N (loadPhase src src_off ld_src M N z) z) N)
  else none

/-- Lane-wise mapping of a register (used to relate two instantiations of
the polymorphic register network). -/
def vmap {α β : Type} (g : α → β) (v : Vec8 α) : Vec8 β := fun c => g (v c)

/-- The position-tag instantiation of the load phase: lane `(r, c)` of the
loaded registers carries its own source coordinates when it is a loaded
element, `none` when it is a masked-off or zeroed lane. -/
def inputTag (M N : Nat) : Fin 8 → Vec8 (Option (Fin 8 × Fin 8)) :=
  fun r c => if r.val < M ∧ c.val < N then some (r, c) else none

/-- Reading a position tag back as a memory value. -/
def tagVal {α : Type} (src : Nat → α) (src_off ld_src : Nat) (z : α) :
    Option (Fin 8 × Fin 8) → α
  | none => z
  | some rc => src (src_off + rc.1.val * ld_src + rc.2.val)

/-- The inner `j`-loop of `transpose_mxn<float>`: `t` full-width tiles of an
`m`-row band starting at row `i` and column `j`, each handled by the 8×8
microkernel at source offset `i * ld_src + j` and destination offset
`j * ld_dst + i`. -/
def colTiles {α : Type} (src : Nat → α) (ld_src ld_dst i m : Nat) (z : α) :
    Nat → Nat → (Nat → α) → Option (Nat → α)
  | _, 0, d => some d
  | j, t + 1, d =>
    (transpose_mxn_8x8 src (i * ld_src + j) ld_src d (j * ld_dst + i) ld_dst m 8 z).bind
      (colTiles src ld_src ld_dst i m z (j + 8) t)

/-- One full band of `transpose_mxn<float>` (8 rows starting at row `i`):
`N / 8` full tiles, then — only when `nrem = N - N / 8 * 8` is positive — a
remainder tile of width `nrem`. -/
def fullBand {α : Type} (src : Nat → α) (ld_src ld_dst : Nat) (N : Nat)
    (i : Nat) (z : α) (d : Nat → α) : Option (Nat → α) :=
  (colTiles src ld_src ld_dst i 8 z 0 (N / 8) d).bind fun d1 =>
    if N - N / 8 * 8 > 0 then
      transpose_mxn_8x8 src (i * ld_src + N / 8 * 8) ld_src d1
        (N / 8 * 8 * ld_dst + i) ld_dst 8 (N - N / 8 * 8) z
    else some d1

/-- The outer `i`-loop of `transpose_mxn<float>`: `b` full bands starting at
row `i`. -/
def rowBands {α : Type} (src : Nat → α) (ld_src ld_dst : Nat) (N : Nat)
    (z : α) : Nat → Nat → (Nat → α) → Option (Nat → α)
  | _, 0, d => some d
  | i, b + 1, d =>
    (fullBand src ld_src ld_dst N i z d).bind (rowBands src ld_src ld_dst N z (i + 8) b)

/-- `transpose_mxn<float>(src, ld_src, dst, ld_dst, M, N)`: `M / 8` full
bands, then — when `mrem = M - M / 8 * 8` is positive — a remainder band of
`mrem` rows: its `N / 8` full tiles followed unconditionally by the corner
tile of size `mrem × nrem`. -/
def transpose_mxn {α : Type} (src : Nat → α) (ld_src : Nat) (dst : Nat → α)
    (ld_dst : Nat) (M N : Nat) (z : α) : Option (Nat → α) :=
  (rowBands src ld_src ld_dst N z 0 (M / 8) dst).bind fun d1 =>
    if M - M / 8 * 8 > 0 then
      (colTiles src ld_src ld_dst (M / 8 * 8) (M - M / 8 * 8) z 0 (N / 8) d1).bind
        fun d2 =>
          transpose_mxn_8x8 src (M / 8 * 8 * ld_src + N / 8 * 8) ld_src d2
            (N / 8 * 8 * ld_dst + M / 8 * 8) ld_dst (M - M / 8 * 8) (N - N / 8 * 8) z
    else some d1

/-- `torch::aot_inductor::data_ptr_from_mkldnn`: with the oneDNN backend
compiled in it delegates to `at::native::data_ptr_from_mkldnn` (external to
this repository, abstracted as `native`); with the backend disabled it is
`TORCH_CHECK(false, "oneDNN build is disabled")`, modelled as `Except.error`
raised before any other effect. -/
def data_ptr_from_mkldnn {Tensor Ptr : Type} (enabled : Bool)
    (native : Tensor → Ptr) (mkldnn_tensor : Tensor) : Except String Ptr :=
  if enabled then Except.ok (native mkldnn_tensor)
  else Except.error "oneDNN build is disabled"

/-- `torch::aot_inductor::mkldnn_tensor_from_data_ptr`: with the oneDNN
backend compiled in it delegates to the external
`at::native::mkldnn_tensor_from_data_ptr` (abstracted as `native`); with the
backend disabled it is `TORCH_CHECK(false, "oneDNN build is disabled")`. -/
def mkldnn_tensor_from_data_ptr {Ptr Dims Dtype Device Meta Tensor : Type}
    (enabled : Bool) (native : Ptr → Dims → Dtype → Device → Meta → Int → Tensor)
    (data_ptr : Ptr) (dims : Dims) (dtype : Dtype) (device : Device)
    (opaque_metadata : Meta) (opaque_metadata_size : Int) : Except String Tensor :=
  if enabled then
    Except.ok (native data_ptr dims dtype device opaque_metadata opaque_metadata_size)
  else Except.error "oneDNN build is disabled"

/-! ## Theorems -/

/-- Helper: a comparison lane is the all-ones mask exactly when its predicate
holds, and the all-zeros mask otherwise. -/
theorem mask_lane_iff (c : Prop) [Decidable c] :
    ((if c then ones32 else 0) = ones32 ↔ c) ∧ (¬ c → (if c then ones32 else 0) = 0) := by
  have hne : (0 : Nat) ≠ ones32 := by decide
  constructor
  · split
    · simp [*]
    · rename_i hnc
      exact ⟨fun h0 => absurd h0 hne, fun hc => absurd hc hnc⟩
  · intro h
    simp [h]

/-- C9: with the oneDNN backend not compiled in, both interop functions fail
immediately with the "oneDNN build is disabled" precondition error, for every
input, and return no value. -/
theorem C9_onednn_disabled_errors {Tensor Ptr Dims Dtype Device Meta : Type}
    (native1 : Tensor → Ptr)
    (native2 : Ptr → Dims → Dtype → Device → Meta → Int → Tensor)
    (t : Tensor) (p : Ptr) (dims : Dims) (dtype : Dtype) (device : Device)
    (md : Meta) (mdsize : Int) :
    data_ptr_from_mkldnn false native1 t = Except.error "oneDNN build is disabled" ∧
    mkldnn_tensor_from_data_ptr false native2 p dims dtype device md mdsize =
      Except.error "oneDNN build is disabled" := by
  exact ⟨rfl, rfl⟩

/-- C10: `store` with `count ≤ 0` (zero or negative) performs no write: the
memory function is returned unchanged. -/
theorem C10_store_nonpositive_count_no_write (v : Vec8 Nat)
    (mem : Nat → Nat) (count : Int) (hc : count ≤ 0) :
    store v mem count = mem := by
  funext p
  unfold store
  rw [if_neg (by omega), if_neg (by omega)]

/-- C10 witness at `count = -5`. -/
theorem C10_store_nonpositive_count_no_write_witness :
    (-5 : Int) ≤ 0 ∧ store (fun _ => 1) (fun p => p) (-5) = fun p => p :=
  ⟨by decide, C10_store_nonpositive_count_no_write (fun _ => 1) (fun p => p) (-5) (by decide)⟩

/-- C4: for `count ≤ 8`, `loadu` reads only the first `count` source
elements (its result is unchanged under any change of the source past
`count`), lanes `[count, 8)` of the loaded value are exactly the float `0.0`
(pattern 0), and a subsequent `store` with the same count writes back
exactly the first `count` elements while leaving memory at offsets
`≥ count` unchanged; `store` with `count = 0` writes nothing. -/
theorem C4_loadu_store_roundtrip (src mem : Nat → Nat) (count : Nat)
    (hc : count ≤ 8) :
    (∀ i : Fin 8, count ≤ i.val → loadu src count i = 0) ∧
    (∀ src2 : Nat → Nat, (∀ k, k < count → src k = src2 k) →
      loadu src count = loadu src2 count) ∧
    (∀ k, k < count → store (loadu src count) mem (count : Int) k = src k) ∧
    (∀ k, count ≤ k → store (loadu src count) mem (count : Int) k = mem k) ∧
    store (loadu src count) mem 0 = mem := by
  have hload : ∀ i : Fin 8, i.val < count → loadu src count i = src i.val := by
    intro i hi
    unfold loadu
    by_cases h8 : count = 8
    · rw [if_pos h8]
    · rw [if_neg h8, if_pos hi]
  refine ⟨?_, ?_, ?_, ?_, ?_⟩
  · intro i hi
    unfold loadu
    have h8 : ¬ count = 8 := by omega
    rw [if_neg h8, if_neg (by omega)]
  · intro src2 h
    unfold loadu
    split
    · funext i
      exact h i.val (by omega)
    · funext i
      split
      · exact h i.val (by assumption)
      · rfl
  · intro k hk
    unfold store
    split_ifs with h1 h2 h3 h4
    · exact hload ⟨k, h2⟩ hk
    · omega
    · exact hload ⟨k, h4.1⟩ hk
    · exact absurd ⟨by omega, by exact_mod_cast hk⟩ h4
    · omega
  · intro k hk
    unfold store
    split_ifs with h1 h2 h3 h4
    · omega
    · rfl
    · have : ¬ ((k : Int) < (count : Int)) := by exact_mod_cast not_lt.mpr hk
      exact absurd h4.2 this
    · rfl
    · rfl
  · funext p
    unfold store
    rw [if_neg (by decide), if_neg (by decide)]

/-- C4 witness at `count = 3`. -/
theorem C4_loadu_store_roundtrip_witness :
    3 ≤ 8 ∧
    ((∀ i : Fin 8, 3 ≤ i.val → loadu (fun p => p + 10) 3 i = 0) ∧
    (∀ src2 : Nat → Nat, (∀ k, k < 3 → (fun p => p + 10) k = src2 k) →
      loadu (fun p => p + 10) 3 = loadu src2 3) ∧
    (∀ k, k < 3 → store (loadu (fun p => p + 10) 3) (fun _ => 77) ((3 : Nat) : Int) k =
      (fun p => p + 10) k) ∧
    (∀ k, 3 ≤ k → store (loadu (fun p => p + 10) 3) (fun _ => 77) ((3 : Nat) : Int) k =
      (fun _ => 77) k) ∧
    store (loadu (fun p => p + 10) 3) (fun _ => 77) 0 = fun _ => 77) :=
  ⟨by decide, C4_loadu_store_roundtrip (fun p => p + 10) (fun _ => 77) 3 (by decide)⟩

/-- C5: for `count` in `[0, 8]`, `set(a, b, count)` equals `b` in lanes
`[0, count)` and `a` in lanes `[count, 8)`; in particular `set(a, b, 0) = a`
and `set(a, b, 8) = b`; and for every `count ≥ 8` it returns `b`
unchanged. -/
theorem C5_set_blends_by_count (a b : Vec8 Nat) (count : Int)
    (h0 : 0 ≤ count) (h8 : count ≤ 8) :
    (∀ i : Fin 8, (i.val : Int) < count → set a b count i = b i) ∧
    (∀ i : Fin 8, count ≤ (i.val : Int) → set a b count i = a i) ∧
    set a b 0 = a ∧ set a b 8 = b ∧
    (∀ c : Int, 8 ≤ c → set a b c = b) := by
  refine ⟨?_, ?_, rfl, rfl, ?_⟩
  · interval_cases count <;> intro i hi <;> fin_cases i <;>
      simp_all [set, blend, Nat.testBit_to_div_mod]
  · interval_cases count <;> intro i hi <;> fin_cases i <;>
      simp_all [set, blend, Nat.testBit_to_div_mod]
  · intro c hc
    unfold set
    split_ifs <;> first | rfl | omega

/-- C5 witness at `count = 5`. -/
theorem C5_set_blends_by_count_witness :
    (0 : Int) ≤ 5 ∧ (5 : Int) ≤ 8 ∧
    ((∀ i : Fin 8, (i.val : Int) < 5 → set (fun _ => 3) (fun _ => 4) 5 i = 4) ∧
    (∀ i : Fin 8, (5 : Int) ≤ i.val → set (fun _ => 3) (fun _ => 4) 5 i = 3) ∧
    set (fun _ => 3) (fun _ => 4) 0 = (fun _ => 3) ∧
    set (fun _ => 3) (fun _ => 4) 8 = (fun _ => 4) ∧
    (∀ c : Int, 8 ≤ c → set (fun _ => 3) (fun _ => 4) c = fun _ => 4)) :=
  ⟨by decide, by decide,
    C5_set_blends_by_count (fun _ => 3) (fun _ => 4) 5 (by decide) (by decide)⟩

/-- Helper: OR-ing the all-ones comparison mask into any 32-bit pattern
yields the all-ones pattern. -/
theorem lor_ones32 {x : Nat} (hx : x < 2 ^ 32) : x ||| ones32 = ones32 := by
  apply Nat.eq_of_testBit_eq
  intro k
  rw [Nat.testBit_or, show ones32 = 2 ^ 32 - 1 from rfl, Nat.testBit_two_pow_sub_one]
  by_cases hk : k < 32
  · simp [hk]
  · have hxk : Nat.testBit x k = false :=
      Nat.testBit_lt_two_pow
        (lt_of_lt_of_le hx (Nat.pow_le_pow_right (by norm_num) (by omega)))
    simp [hk, hxk]

/-- C2: each comparison operator produces, per lane, the all-ones mask
exactly when its predicate holds and the all-zeros mask otherwise; `==`,
`<`, `<=`, `>`, `>=` use the ordered-quiet predicate (false whenever either
lane is NaN) and `!=` the unordered-quiet predicate (true whenever either
lane is NaN, and otherwise true exactly on numerically unequal lanes). -/
theorem C2_comparison_masks (a b : Vec8 Nat) (i : Fin 8) :
    ((cmp_eq a b i = ones32 ↔
        ¬ isNaN32 (a i) ∧ ¬ isNaN32 (b i) ∧ val32 (a i) = val32 (b i)) ∧
      (¬ (¬ isNaN32 (a i) ∧ ¬ isNaN32 (b i) ∧ val32 (a i) = val32 (b i)) →
        cmp_eq a b i = 0)) ∧
    ((cmp_lt a b i = ones32 ↔
        ¬ isNaN32 (a i) ∧ ¬ isNaN32 (b i) ∧ val32 (a i) < val32 (b i)) ∧
      (¬ (¬ isNaN32 (a i) ∧ ¬ isNaN32 (b i) ∧ val32 (a i) < val32 (b i)) →
        cmp_lt a b i = 0)) ∧
    ((cmp_le a b i = ones32 ↔
        ¬ isNaN32 (a i) ∧ ¬ isNaN32 (b i) ∧ val32 (a i) ≤ val32 (b i)) ∧
      (¬ (¬ isNaN32 (a i) ∧ ¬ isNaN32 (b i) ∧ val32 (a i) ≤ val32 (b i)) →
        cmp_le a b i = 0)) ∧
    ((cmp_gt a b i = ones32 ↔
        ¬ isNaN32 (a i) ∧ ¬ isNaN32 (b i) ∧ val32 (b i) < val32 (a i)) ∧
      (¬ (¬ isNaN32 (a i) ∧ ¬ isNaN32 (b i) ∧ val32 (b i) < val32 (a i)) →
        cmp_gt a b i = 0)) ∧
    ((cmp_ge a b i = ones32 ↔
        ¬ isNaN32 (a i) ∧ ¬ isNaN32 (b i) ∧ val32 (b i) ≤ val32 (a i)) ∧
      (¬ (¬ isNaN32 (a i) ∧ ¬ isNaN32 (b i) ∧ val32 (b i) ≤ val32 (a i)) →
        cmp_ge a b i = 0)) ∧
    ((cmp_ne a b i = ones32 ↔
        isNaN32 (a i) ∨ isNaN32 (b i) ∨
          (¬ isNaN32 (a i) ∧ ¬ isNaN32 (b i) ∧ val32 (a i) ≠ val32 (b i))) ∧
      (¬ (isNaN32 (a i) ∨ isNaN32 (b i) ∨
          (¬ isNaN32 (a i) ∧ ¬ isNaN32 (b i) ∧ val32 (a i) ≠ val32 (b i))) →
        cmp_ne a b i = 0)) := by
  refine ⟨mask_lane_iff _, mask_lane_iff _, mask_lane_iff _, mask_lane_iff _,
    mask_lane_iff _, ?_⟩
  have hiff : (isNaN32 (a i) ∨ isNaN32 (b i) ∨ ¬ val32 (a i) = val32 (b i)) ↔
      (isNaN32 (a i) ∨ isNaN32 (b i) ∨
        (¬ isNaN32 (a i) ∧ ¬ isNaN32 (b i) ∧ val32 (a i) ≠ val32 (b i))) := by
    tauto
  have h := mask_lane_iff
    (isNaN32 (a i) ∨ isNaN32 (b i) ∨ ¬ val32 (a i) = val32 (b i))
  exact ⟨h.1.trans hiff, fun hn => h.2 (fun hc => hn (hiff.mp hc))⟩

/-- C7: `eq(a, b)` holds the float `1.0f` (pattern `0x3F800000`) in a lane
exactly when both lanes are non-NaN and numerically equal, and the float
`0.0f` (pattern 0) otherwise, in particular whenever either lane is NaN. -/
theorem C7_eq_numeric_one_zero (a b : Vec8 Nat) (i : Fin 8) :
    (¬ isNaN32 (a i) ∧ ¬ isNaN32 (b i) ∧ val32 (a i) = val32 (b i) →
      eq a b i = float_one_bits) ∧
    (isNaN32 (a i) ∨ isNaN32 (b i) ∨ val32 (a i) ≠ val32 (b i) →
      eq a b i = 0) := by
  constructor
  · intro h
    show cmp_eq_oq (a i) (b i) &&& float_one_bits = float_one_bits
    unfold cmp_eq_oq
    rw [if_pos h]
    decide
  · intro h
    show cmp_eq_oq (a i) (b i) &&& float_one_bits = 0
    unfold cmp_eq_oq
    rw [if_neg (by tauto)]
    simp

/-- C3: `maximum` and `minimum` hold a NaN in any lane where either input
lane is NaN; in a lane where neither is NaN they hold one of the two input
patterns, numerically equal to the IEEE maximum (resp. minimum) of the two
lane values. -/
theorem C3_maximum_minimum_nan_propagation (a b : Vec8 Nat)
    (hv : ∀ i : Fin 8, a i < 2 ^ 32 ∧ b i < 2 ^ 32) (i : Fin 8) :
    (isNaN32 (a i) ∨ isNaN32 (b i) →
      isNaN32 (maximum a b i) ∧ isNaN32 (minimum a b i)) ∧
    (¬ isNaN32 (a i) → ¬ isNaN32 (b i) →
      (¬ isNaN32 (maximum a b i) ∧
        val32 (maximum a b i) = max (val32 (a i)) (val32 (b i)) ∧
        (maximum a b i = a i ∨ maximum a b i = b i)) ∧
      (¬ isNaN32 (minimum a b i) ∧
        val32 (minimum a b i) = min (val32 (a i)) (val32 (b i)) ∧
        (minimum a b i = a i ∨ minimum a b i = b i))) := by
  have hmaxlt : max_ps_lane (a i) (b i) < 2 ^ 32 := by
    unfold max_ps_lane
    split
    · exact (hv i).1
    · exact (hv i).2
  have hminlt : min_ps_lane (a i) (b i) < 2 ^ 32 := by
    unfold min_ps_lane
    split
    · exact (hv i).1
    · exact (hv i).2
  constructor
  · intro h
    have hu : cmp_unord_q (a i) (b i) = ones32 := by
      unfold cmp_unord_q
      rw [if_pos h]
    constructor
    · show isNaN32 (max_ps_lane (a i) (b i) ||| cmp_unord_q (a i) (b i))
      rw [hu, lor_ones32 hmaxlt]
      decide
    · show isNaN32 (min_ps_lane (a i) (b i) ||| cmp_unord_q (a i) (b i))
      rw [hu, lor_ones32 hminlt]
      decide
  · intro ha hb
    have hu : cmp_unord_q (a i) (b i) = 0 := by
      unfold cmp_unord_q
      rw [if_neg (by tauto)]
    have hmax : maximum a b i = max_ps_lane (a i) (b i) := by
      show max_ps_lane (a i) (b i) ||| cmp_unord_q (a i) (b i) = _
      rw [hu, Nat.or_zero]
    have hmin : minimum a b i = min_ps_lane (a i) (b i) := by
      show min_ps_lane (a i) (b i) ||| cmp_unord_q (a i) (b i) = _
      rw [hu, Nat.or_zero]
    rw [hmax, hmin]
    unfold max_ps_lane min_ps_lane
    constructor
    · split_ifs with h
      · exact ⟨ha, (max_eq_left (le_of_lt h.2.2)).symm, Or.inl rfl⟩
      · have hle : val32 (a i) ≤ val32 (b i) := by
          by_contra hcon
          exact h ⟨ha, hb, by omega⟩
        exact ⟨hb, (max_eq_right hle).symm, Or.inr rfl⟩
    · split_ifs with h
      · exact ⟨ha, (min_eq_left (le_of_lt h.2.2)).symm, Or.inl rfl⟩
      · have hle : val32 (b i) ≤ val32 (a i) := by
          by_contra hcon
          exact h ⟨ha, hb, by omega⟩
        exact ⟨hb, (min_eq_right hle).symm, Or.inr rfl⟩

/-- C3 witness: lane values `1.0f` against the quiet NaN `0x7FC00000`. -/
theorem C3_maximum_minimum_nan_propagation_witness :
    (∀ i : Fin 8, (fun _ : Fin 8 => (0x3F800000 : Nat)) i < 2 ^ 32 ∧
      (fun _ : Fin 8 => (0x7FC00000 : Nat)) i < 2 ^ 32) ∧
    ((isNaN32 ((fun _ : Fin 8 => (0x3F800000 : Nat)) 0) ∨
        isNaN32 ((fun _ : Fin 8 => (0x7FC00000 : Nat)) 0) →
      isNaN32 (maximum (fun _ => 0x3F800000) (fun _ => 0x7FC00000) 0) ∧
      isNaN32 (minimum (fun _ => 0x3F800000) (fun _ => 0x7FC00000) 0)) ∧
    (¬ isNaN32 ((fun _ : Fin 8 => (0x3F800000 : Nat)) 0) →
      ¬ isNaN32 ((fun _ : Fin 8 => (0x7FC00000 : Nat)) 0) →
      (¬ isNaN32 (maximum (fun _ => 0x3F800000) (fun _ => 0x7FC00000) 0) ∧
        val32 (maximum (fun _ => 0x3F800000) (fun _ => 0x7FC00000) 0) =
          max (val32 ((fun _ : Fin 8 => (0x3F800000 : Nat)) 0))
            (val32 ((fun _ : Fin 8 => (0x7FC00000 : Nat)) 0)) ∧
        (maximum (fun _ => 0x3F800000) (fun _ => 0x7FC00000) 0 =
            (fun _ : Fin 8 => (0x3F800000 : Nat)) 0 ∨
          maximum (fun _ => 0x3F800000) (fun _ => 0x7FC00000) 0 =
            (fun _ : Fin 8 => (0x7FC00000 : Nat)) 0)) ∧
      (¬ isNaN32 (minimum (fun _ => 0x3F800000) (fun _ => 0x7FC00000) 0) ∧
        val32 (minimum (fun _ => 0x3F800000) (fun _ => 0x7FC00000) 0) =
          min (val32 ((fun _ : Fin 8 => (0x3F800000 : Nat)) 0))
            (val32 ((fun _ : Fin 8 => (0x7FC00000 : Nat)) 0)) ∧
        (minimum (fun _ => 0x3F800000) (fun _ => 0x7FC00000) 0 =
            (fun _ : Fin 8 => (0x3F800000 : Nat)) 0 ∨
          minimum (fun _ => 0x3F800000) (fun _ => 0x7FC00000) 0 =
            (fun _ : Fin 8 => (0x7FC00000 : Nat)) 0)))) :=
  ⟨by decide,
    C3_maximum_minimum_nan_propagation (fun _ => 0x3F800000) (fun _ => 0x7FC00000)
      (by decide) 0⟩

/-- Helper: bit `k` of `a + 16 * b` (digit-wise view of a base-16 number). -/
theorem testBit_add16 (a b : Nat) (ha : a < 16) (k : Nat) :
    Nat.testBit (a + 16 * b) k =
      if k < 4 then Nat.testBit a k else Nat.testBit b (k - 4) := by
  have h : a + 16 * b = 2 ^ 4 * b + a := by ring
  rw [h, Nat.testBit_mul_pow_two_add b (by omega) k]

/-- Helper: AND distributes over base-16 digit decompositions whose mask
digit is 7. -/
theorem land_digit_step (a b c : Nat) (ha : a < 16) :
    (a + 16 * b) &&& (7 + 16 * c) = (a &&& 7) + 16 * (b &&& c) := by
  have h7 : (7 : Nat) < 16 := by norm_num
  have hand : a &&& 7 < 16 := Nat.and_lt_two_pow a (show 7 < 2 ^ 4 by norm_num)
  apply Nat.eq_of_testBit_eq
  intro k
  rw [Nat.testBit_and, testBit_add16 a b ha k, testBit_add16 7 c h7 k,
    testBit_add16 (a &&& 7) (b &&& c) hand k]
  by_cases hk : k < 4
  · simp [hk, Nat.testBit_and]
  · simp [hk, Nat.testBit_and]

/-- Helper: the four byte-top bits of a lane form a value below 16. -/
theorem byteTopBits_lt (x : Nat) : byteTopBits x < 16 := by
  unfold byteTopBits
  omega

/-- Helper: `movemask & 0x77777777` digit by digit: each lane keeps the top
bits of its bytes 0, 1 and 2 and loses the top bit of byte 3 (the float's
sign bit). -/
theorem movemask_and_mask7 (w : Vec8 Nat) :
    movemask_epi8 w &&& 0x77777777 =
      (byteTopBits (w 0) &&& 7) + 16 * ((byteTopBits (w 1) &&& 7) +
        16 * ((byteTopBits (w 2) &&& 7) + 16 * ((byteTopBits (w 3) &&& 7) +
          16 * ((byteTopBits (w 4) &&& 7) + 16 * ((byteTopBits (w 5) &&& 7) +
            16 * ((byteTopBits (w 6) &&& 7) + 16 * (byteTopBits (w 7) &&& 7))))))) := by
  have h7 : (0x77777777 : Nat) =
      7 + 16 * (7 + 16 * (7 + 16 * (7 + 16 * (7 + 16 * (7 + 16 * (7 + 16 * 7)))))) := by
    norm_num
  rw [movemask_epi8, h7, land_digit_step _ _ _ (byteTopBits_lt _),
    land_digit_step _ _ _ (byteTopBits_lt _), land_digit_step _ _ _ (byteTopBits_lt _),
    land_digit_step _ _ _ (byteTopBits_lt _), land_digit_step _ _ _ (byteTopBits_lt _),
    land_digit_step _ _ _ (byteTopBits_lt _), land_digit_step _ _ _ (byteTopBits_lt _)]

/-- Helper: the masked digit of a lane keeps exactly the top bits of bytes
0, 1, 2. -/
theorem byteTop_and7 (y : Nat) :
    byteTopBits y &&& 7 = y / 2 ^ 7 % 2 + 2 * (y / 2 ^ 15 % 2) + 4 * (y / 2 ^ 23 % 2) := by
  have h : byteTopBits y &&& 7 = byteTopBits y % 8 := by
    rw [show (7 : Nat) = 2 ^ 3 - 1 from rfl, Nat.and_pow_two_sub_one_eq_mod]
  rw [h]
  unfold byteTopBits
  omega

/-- Helper: any pattern with an all-ones exponent field has bit 23 set. -/
theorem exp255_bit23 {x : Nat} (hx : expBits x = 255) : x / 2 ^ 23 % 2 = 1 := by
  unfold expBits at hx
  omega

/-- Helper: `x - x` of an Inf or NaN lane has bit 23 (an exponent bit) set. -/
theorem sub_lane_bit23 {x : Nat} (h : isNaN32 x ∨ isInf32 x) :
    sub_ps_self_lane x / 2 ^ 23 % 2 = 1 := by
  unfold sub_ps_self_lane
  rcases h with h | h
  · rw [if_pos h]
    have hb : Nat.testBit (x ||| 2 ^ 22) 23 = true := by
      rw [Nat.testBit_or]
      have hx : Nat.testBit x 23 = true := by
        rw [Nat.testBit_to_div_mod, decide_eq_true_eq]
        exact exp255_bit23 h.1
      simp [hx]
    rw [Nat.testBit_to_div_mod, decide_eq_true_eq] at hb
    exact hb
  · have hn : ¬ isNaN32 x := by
      rintro ⟨h1, h2⟩
      exact h2 h.2
    rw [if_neg hn, if_pos h]
    norm_num

/-- Helper: `x - x` of a finite lane is exactly `+0.0`. -/
theorem sub_lane_finite {x : Nat} (h : ¬ (isNaN32 x ∨ isInf32 x)) :
    sub_ps_self_lane x = 0 := by
  unfold sub_ps_self_lane
  rw [if_neg (fun hh => h (Or.inl hh)), if_neg (fun hh => h (Or.inr hh))]

/-- Helper: a lane's masked movemask digit vanishes exactly when the lane is
neither Inf nor NaN. -/
theorem lane_digit_spec (x : Nat) :
    byteTopBits (sub_ps_self_lane x) &&& 7 = 0 ↔ ¬ (isNaN32 x ∨ isInf32 x) := by
  constructor
  · intro h0 hspec
    have hb := sub_lane_bit23 hspec
    rw [byteTop_and7] at h0
    omega
  · intro h
    rw [sub_lane_finite h]
    decide

/-- C6: `has_inf_nan` returns true exactly when some lane is `+inf`, `-inf`
or a NaN; in particular it returns false on every vector of finite lanes
(negative zero included, which is finite). -/
theorem C6_has_inf_nan_iff_inf_or_nan (v : Vec8 Nat) :
    has_inf_nan v = true ↔ ∃ i : Fin 8, isNaN32 (v i) ∨ isInf32 (v i) := by
  unfold has_inf_nan
  simp only [bne_iff_ne, ne_eq]
  rw [movemask_and_mask7]
  constructor
  · intro hne
    by_contra hall
    push_neg at hall
    refine hne ?_
    rw [(lane_digit_spec (v 0)).2 (not_or.mpr (hall 0)),
      (lane_digit_spec (v 1)).2 (not_or.mpr (hall 1)),
      (lane_digit_spec (v 2)).2 (not_or.mpr (hall 2)),
      (lane_digit_spec (v 3)).2 (not_or.mpr (hall 3)),
      (lane_digit_spec (v 4)).2 (not_or.mpr (hall 4)),
      (lane_digit_spec (v 5)).2 (not_or.mpr (hall 5)),
      (lane_digit_spec (v 6)).2 (not_or.mpr (hall 6)),
      (lane_digit_spec (v 7)).2 (not_or.mpr (hall 7))]
  · rintro ⟨i, hi⟩ hsum
    refine (lane_digit_spec (v i)).1 ?_ hi
    have hz : byteTopBits (sub_ps_self_lane (v 0)) &&& 7 = 0 ∧
        byteTopBits (sub_ps_self_lane (v 1)) &&& 7 = 0 ∧
        byteTopBits (sub_ps_self_lane (v 2)) &&& 7 = 0 ∧
        byteTopBits (sub_ps_self_lane (v 3)) &&& 7 = 0 ∧
        byteTopBits (sub_ps_self_lane (v 4)) &&& 7 = 0 ∧
        byteTopBits (sub_ps_self_lane (v 5)) &&& 7 = 0 ∧
        byteTopBits (sub_ps_self_lane (v 6)) &&& 7 = 0 ∧
        byteTopBits (sub_ps_self_lane (v 7)) &&& 7 = 0 := by
      omega
    obtain ⟨h0, h1, h2, h3, h4, h5, h6, h7⟩ := hz
    rcases i with ⟨iv, hlt⟩
    interval_cases iv
    · exact h0
    · exact h1
    · exact h2
    · exact h3
    · exact h4
    · exact h5
    · exact h6
    · exact h7

/-! ## The transpose microkernel: the register network only moves lanes -/

/-- `unpacklo_ps` commutes with lane-wise mapping. -/
theorem unpacklo_ps_map {α β : Type} (g : α → β) (a b : Vec8 α) :
    unpacklo_ps (vmap g a) (vmap g b) = vmap g (unpacklo_ps a b) := by
  funext l
  fin_cases l <;> rfl

/-- `unpackhi_ps` commutes with lane-wise mapping. -/
theorem unpackhi_ps_map {α β : Type} (g : α → β) (a b : Vec8 α) :
    unpackhi_ps (vmap g a) (vmap g b) = vmap g (unpackhi_ps a b) := by
  funext l
  fin_cases l <;> rfl

/-- `shuffle_ps` commutes with lane-wise mapping. -/
theorem shuffle_ps_map {α β : Type} (g : α → β) (a b : Vec8 α) (imm : Nat) :
    shuffle_ps (vmap g a) (vmap g b) imm = vmap g (shuffle_ps a b imm) := by
  funext l
  by_cases h : l.val % 4 < 2 <;> simp [shuffle_ps, vmap, h]

/-- `permute2f128_ps` commutes with lane-wise mapping. -/
theorem permute2f128_ps_map {α β : Type} (g : α → β) (a b : Vec8 α) (imm : Nat) :
    permute2f128_ps (vmap g a) (vmap g b) imm = vmap g (permute2f128_ps a b imm) := by
  funext l
  by_cases h : imm / 16 ^ (l.val / 4) % 4 < 2 <;> simp [permute2f128_ps, vmap, h]

/-- The unpack phase commutes with lane-wise mapping. -/
theorem unpackPhase_map {α β : Type} (g : α → β) (M : Nat)
    (input : Fin 8 → Vec8 α) (z : α) :
    unpackPhase M (fun r => vmap g (input r)) (g z) =
      fun k => vmap g (unpackPhase M input z k) := by
  funext k
  unfold unpackPhase
  split
  · split
    · exact unpacklo_ps_map g _ _
    · exact unpackhi_ps_map g _ _
  · rfl

/-- The shuffle phase commutes with lane-wise mapping. -/
theorem shufflePhase_map {α β : Type} (g : α → β) (M : Nat)
    (temp input : Fin 8 → Vec8 α) :
    shufflePhase M (fun k => vmap g (temp k)) (fun k => vmap g (input k)) =
      fun k => vmap g (shufflePhase M temp input k) := by
  funext k
  unfold shufflePhase
  split
  · split
    · exact shuffle_ps_map g _ _ _
    · split
      · exact shuffle_ps_map g _ _ _
      · split
        · exact shuffle_ps_map g _ _ _
        · exact shuffle_ps_map g _ _ _
  · rfl

/-- The permute phase commutes with lane-wise mapping. -/
theorem permutePhase_map {α β : Type} (g : α → β) (N : Nat)
    (input2 temp : Fin 8 → Vec8 α) :
    permutePhase N (fun k => vmap g (input2 k)) (fun k => vmap g (temp k)) =
      fun k => vmap g (permutePhase N input2 temp k) := by
  funext k
  unfold permutePhase
  split
  · split
    · exact permute2f128_ps_map g _ _ _
    · exact permute2f128_ps_map g _ _ _
  · rfl

/-- The whole register network commutes with lane-wise mapping: it only
routes lane values, never inspects them. -/
theorem transposeNet_map {α β : Type} (g : α → β) (M N : Nat)
    (input : Fin 8 → Vec8 α) (z : α) :
    transposeNet M N (fun r => vmap g (input r)) (g z) =
      fun k => vmap g (transposeNet M N input z k) := by
  unfold transposeNet
  rw [unpackPhase_map, shufflePhase_map, permutePhase_map]

/-- The register network on position tags: for every block shape
`M, N ≤ 8`, output row `j` holds in lane `i` the tag of source row `i`,
column `j` — the 8×8 unpack/shuffle/permute network transposes the block.
Checked by exhaustive evaluation over all 81 shapes and 64 lanes. -/
theorem netTag_correct (M N : Nat) (hM : M ≤ 8) (hN : N ≤ 8) :
    ∀ (i j : Fin 8), i.val < M → j.val < N →
      transposeNet M N (inputTag M N) none j i = some (i, j) := by
  interval_cases M <;> interval_cases N <;> decide

/-- The load phase is the tag reading of `inputTag`: masked and zeroed lanes
are `z`, loaded lanes read `src` at `src_off + r * ld_src + c`. -/
theorem loadPhase_eq_tagVal {α : Type} (src : Nat → α) (src_off ld_src M N : Nat)
    (z : α) (hN : N ≤ 8) :
    loadPhase src src_off ld_src M N z =
      fun r => vmap (tagVal src src_off ld_src z) (inputTag M N r) := by
  funext r c
  by_cases hr : r.val < M
  · by_cases h8 : N = 8
    · subst h8
      simp [loadPhase, inputTag, vmap, tagVal, hr, c.isLt]
    · by_cases hc : c.val < N
      · simp [loadPhase, inputTag, vmap, tagVal, hr, h8, hc,
          Nat.testBit_two_pow_sub_one]
      · simp [loadPhase, inputTag, vmap, tagVal, hr, h8, hc,
          Nat.testBit_two_pow_sub_one]
  · simp [loadPhase, inputTag, vmap, tagVal, hr]

/-- The register network of the microkernel on real data: output row `j`,
lane `i` is the source element at row `i`, column `j` of the block. -/
theorem net_output {α : Type} (src : Nat → α) (src_off ld_src M N : Nat) (z : α)
    (hM : M ≤ 8) (hN : N ≤ 8) (i j : Fin 8) (hi : i.val < M) (hj : j.val < N) :
    transposeNet M N (loadPhase src src_off ld_src M N z) z j i =
      src (src_off + i.val * ld_src + j.val) := by
  have hmap := transposeNet_map (tagVal src src_off ld_src z) M N (inputTag M N) none
  have h1 : transposeNet M N (loadPhase src src_off ld_src M N z) z j i =
      vmap (tagVal src src_off ld_src z) (transposeNet M N (inputTag M N) none j) i := by
    rw [loadPhase_eq_tagVal src src_off ld_src M N z hN]
    exact congrFun (congrFun hmap j) i
  rw [h1]
  show tagVal src src_off ld_src z (transposeNet M N (inputTag M N) none j i) = _
  rw [netTag_correct M N hM hN i j hi hj]
  rfl

/-! ## The transpose microkernel: the store phase -/

/-- With a row stride of at least the row length, destination positions
`j * ld + i` determine row and lane uniquely. -/
theorem pos_inj {ld j i j2 i2 : Nat} (hi : i < ld) (hi2 : i2 < ld)
    (h : j * ld + i = j2 * ld + i2) : j = j2 ∧ i = i2 := by
  have hld : 0 < ld := by omega
  have e1 : (j * ld + i) % ld = i := by
    rw [Nat.add_comm, Nat.add_mul_mod_self_right]
    exact Nat.mod_eq_of_lt hi
  have e2 : (j2 * ld + i2) % ld = i2 := by
    rw [Nat.add_comm, Nat.add_mul_mod_self_right]
    exact Nat.mod_eq_of_lt hi2
  have hii : i = i2 := by rw [← e1, ← e2, h]
  subst hii
  have hjj : j * ld = j2 * ld := by omega
  exact ⟨Nat.eq_of_mul_eq_mul_right hld hjj, rfl⟩

/-- Positions of a row below row `n` lie strictly before row `n`'s base. -/
theorem row_pos_lt {ld j i n M : Nat} (hj : j < n) (hi : i < M) (hld : M ≤ ld) :
    j * ld + i < n * ld := by
  have h1 : j * ld + i < (j + 1) * ld := by
    have : i < ld := by omega
    calc j * ld + i < j * ld + ld := by omega
    _ = (j + 1) * ld := by ring
  calc j * ld + i < (j + 1) * ld := h1
  _ ≤ n * ld := Nat.mul_le_mul_right ld (by omega)

/-- One row store writes exactly the lanes `[0, M)` after `base` (the full
store when `M = 8` and the masked store when `M < 8` agree on this). -/
theorem storeRow_eq {α : Type} (mem : Nat → α) (base M : Nat) (v : Vec8 α)
    (hM : M ≤ 8) (p : Nat) :
    storeRow mem base M v p =
      if h : base ≤ p ∧ p - base < M then v ⟨p - base, by omega⟩ else mem p := by
  unfold storeRow
  by_cases h8 : M = 8
  · subst h8
    rw [if_pos rfl]
  · rw [if_neg h8]
    by_cases hc : base ≤ p ∧ p - base < M
    · rw [dif_pos ⟨hc.1, by omega,
        by rw [Nat.testBit_two_pow_sub_one]; simpa using hc.2⟩, dif_pos hc]
    · rw [dif_neg fun hh => hc ⟨hh.1, by
        have := hh.2.2
        rw [Nat.testBit_two_pow_sub_one] at this
        simpa using this⟩, dif_neg hc]

/-- After storing rows `0 ≤ j < n`, position `base + j * ld + i` of the
destination holds lane `i` of row `j`. -/
theorem storePhase_out {α : Type} (dst : Nat → α) (dst_off ld_dst M : Nat)
    (rows : Fin 8 → Vec8 α) (hM : M ≤ 8) (hld : M ≤ ld_dst) :
    ∀ n, ∀ hn : n ≤ 8, ∀ j i : Nat, ∀ hj : j < n, ∀ hi : i < M,
      storePhase dst dst_off ld_dst M rows n (dst_off + j * ld_dst + i) =
        rows ⟨j, by omega⟩ ⟨i, by omega⟩ := by
  intro n
  induction n with
  | zero => omega
  | succ m ih =>
    intro hn j i hj hi
    have hm : m < 8 := by omega
    show (if h : m < 8 then
        storeRow (storePhase dst dst_off ld_dst M rows m) (dst_off + m * ld_dst) M
          (rows ⟨m, h⟩)
      else storePhase dst dst_off ld_dst M rows m) _ = _
    rw [dif_pos hm, storeRow_eq _ _ _ _ hM]
    by_cases hjm : j = m
    · subst hjm
      rw [dif_pos ⟨by omega, by omega⟩]
      refine congrArg _ (Fin.ext ?_)
      simp
    · have hjlt : j < m := by omega
      have hplt : j * ld_dst + i < m * ld_dst := row_pos_lt hjlt hi hld
      rw [dif_neg (by omega)]
      exact ih (by omega) j i hjlt hi

/-- The store phase writes nothing outside the block footprint
`{dst_off + j * ld + i : j < n, i < M}`. -/
theorem storePhase_frame {α : Type} (dst : Nat → α) (dst_off ld_dst M : Nat)
    (rows : Fin 8 → Vec8 α) (hM : M ≤ 8) :
    ∀ n p, (∀ j i : Nat, j < n → i < M → p ≠ dst_off + j * ld_dst + i) →
      storePhase dst dst_off ld_dst M rows n p = dst p := by
  intro n
  induction n with
  | zero =>
    intro p hp
    rfl
  | succ m ih =>
    intro p hp
    show (if h : m < 8 then
        storeRow (storePhase dst dst_off ld_dst M rows m) (dst_off + m * ld_dst) M
          (rows ⟨m, h⟩)
      else storePhase dst dst_off ld_dst M rows m) p = dst p
    by_cases hm : m < 8
    · rw [dif_pos hm, storeRow_eq _ _ _ _ hM]
      have hout : ¬ (dst_off + m * ld_dst ≤ p ∧ p - (dst_off + m * ld_dst) < M) := by
        rintro ⟨h1, h2⟩
        exact hp m (p - (dst_off + m * ld_dst)) (by omega) h2 (by omega)
      rw [dif_neg hout]
      exact ih p (fun j i hj hi => hp j i (by omega) hi)
    · rw [dif_neg hm]
      exact ih p (fun j i hj hi => hp j i (by omega) hi)

/-- The 8×8 microkernel specification: under its checked precondition and a
destination stride of at least `M`, it succeeds, writes the transposed block
(element `(i, j)` of the source block lands at row `j`, lane `i` of the
destination block) and touches nothing outside the block footprint. -/
theorem transpose_mxn_8x8_spec {α : Type} (src : Nat → α) (src_off ld_src : Nat)
    (dst : Nat → α) (dst_off ld_dst : Nat) (M N : Nat) (z : α)
    (hM : M ≤ 8) (hN : N ≤ 8) (hld : M ≤ ld_dst) :
    ∃ D, transpose_mxn_8x8 src src_off ld_src dst dst_off ld_dst M N z = some D ∧
      (∀ i j : Nat, i < M → j < N →
        D (dst_off + j * ld_dst + i) = src (src_off + i * ld_src + j)) ∧
      (∀ p, (∀ j i : Nat, j < N → i < M → p ≠ dst_off + j * ld_dst + i) →
        D p = dst p) := by
  refine ⟨_, by unfold transpose_mxn_8x8; rw [if_pos ⟨hM, hN⟩], ?_, ?_⟩
  · intro i j hi hj
    rw [storePhase_out dst dst_off ld_dst M _ hM hld N hN j i hj hi]
    exact net_output src src_off ld_src M N z hM hN ⟨i, by omega⟩ ⟨j, by omega⟩ hi hj
  · intro p hp
    exact storePhase_frame dst dst_off ld_dst M _ hM N p hp

/-- C8: the microkernel fails its `TORCH_CHECK` exactly when `M > 8` or
`N > 8`; on failure there is no post-state (the check precedes every store,
so the destination is untouched and nothing is truncated), and under the
precondition it succeeds. -/
theorem C8_transpose_mxn_8x8_check {α : Type} (src : Nat → α)
    (src_off ld_src : Nat) (dst : Nat → α) (dst_off ld_dst : Nat) (M N : Nat)
    (z : α) :
    (transpose_mxn_8x8 src src_off ld_src dst dst_off ld_dst M N z = none ↔
      8 < M ∨ 8 < N) ∧
    (M ≤ 8 → N ≤ 8 →
      ∃ D, transpose_mxn_8x8 src src_off ld_src dst dst_off ld_dst M N z = some D) := by
  constructor
  · unfold transpose_mxn_8x8
    split
    · rename_i h
      constructor
      · intro hcon
        exact absurd hcon (by simp)
      · intro hcon
        omega
    · rename_i h
      constructor
      · intro _
        omega
      · intro _
        rfl
  · intro hM hN
    exact ⟨_, by unfold transpose_mxn_8x8; rw [if_pos ⟨hM, hN⟩]⟩

/-! ## The tiled transpose -/

/-- The inner tile loop specification: starting at column `j0`, `t`
full-width tiles of the `m`-row band at rows `[i0, i0 + m)` transpose the
columns `[j0, j0 + 8t)` of the band and touch nothing else. -/
theorem colTiles_spec {α : Type} (src : Nat → α) (ld_src ld_dst i0 m : Nat)
    (z : α) (hm : m ≤ 8) (hld : i0 + m ≤ ld_dst) :
    ∀ t j0 d, ∃ D, colTiles src ld_src ld_dst i0 m z j0 t d = some D ∧
      (∀ r c : Nat, r < m → c < 8 * t →
        D ((j0 + c) * ld_dst + (i0 + r)) = src ((i0 + r) * ld_src + (j0 + c))) ∧
      (∀ p, (∀ c r : Nat, c < 8 * t → r < m → p ≠ (j0 + c) * ld_dst + (i0 + r)) →
        D p = d p) := by
  intro t
  induction t with
  | zero =>
    intro j0 d
    exact ⟨d, rfl, fun r c hr hc => absurd hc (by omega), fun p _ => rfl⟩
  | succ t ih =>
    intro j0 d
    obtain ⟨D1, h1eq, h1c, h1f⟩ := transpose_mxn_8x8_spec src (i0 * ld_src + j0)
      ld_src d (j0 * ld_dst + i0) ld_dst m 8 z hm (by norm_num) (by omega)
    obtain ⟨D, hDeq, hc2, hf2⟩ := ih (j0 + 8) D1
    refine ⟨D, ?_, ?_, ?_⟩
    · show (transpose_mxn_8x8 src (i0 * ld_src + j0) ld_src d (j0 * ld_dst + i0)
        ld_dst m 8 z).bind (colTiles src ld_src ld_dst i0 m z (j0 + 8) t) = some D
      rw [h1eq, Option.some_bind]
      exact hDeq
    · intro r c hr hc
      by_cases hc8 : c < 8
      · have hstep : D ((j0 + c) * ld_dst + (i0 + r)) =
            D1 ((j0 + c) * ld_dst + (i0 + r)) := by
          apply hf2
          intro c2 r2 hc2lt hr2 heq
          have hinj := pos_inj (show i0 + r < ld_dst by omega)
            (show i0 + r2 < ld_dst by omega) heq
          omega
        rw [hstep,
          show (j0 + c) * ld_dst + (i0 + r) = j0 * ld_dst + i0 + c * ld_dst + r by ring,
          show (i0 + r) * ld_src + (j0 + c) = i0 * ld_src + j0 + r * ld_src + c by ring]
        exact h1c r c hr hc8
      · obtain ⟨c2, rfl⟩ : ∃ c2, c = 8 + c2 := ⟨c - 8, by omega⟩
        have hadd : j0 + (8 + c2) = j0 + 8 + c2 := by omega
        rw [hadd]
        exact hc2 r c2 hr (by omega)
    · intro p hp
      have hstep : D p = D1 p := by
        apply hf2
        intro c2 r2 hc2lt hr2
        have hne := hp (8 + c2) r2 (by omega) hr2
        have hadd : j0 + (8 + c2) = j0 + 8 + c2 := by omega
        rw [hadd] at hne
        exact hne
      rw [hstep]
      apply h1f
      intro j i hj hi heq
      rw [show j0 * ld_dst + i0 + j * ld_dst + i = (j0 + j) * ld_dst + (i0 + i) by ring]
        at heq
      exact hp j i (by omega) hi heq

/-- The full-band specification: one 8-row band at rows `[i0, i0 + 8)`
transposes all `N` columns of the band (full tiles plus, when present, the
right-edge remainder tile) and touches nothing else. -/
theorem fullBand_spec {α : Type} (src : Nat → α) (ld_src ld_dst N i0 : Nat)
    (z : α) (hld : i0 + 8 ≤ ld_dst) (d : Nat → α) :
    ∃ D, fullBand src ld_src ld_dst N i0 z d = some D ∧
      (∀ r c : Nat, r < 8 → c < N →
        D (c * ld_dst + (i0 + r)) = src ((i0 + r) * ld_src + c)) ∧
      (∀ p, (∀ c r : Nat, c < N → r < 8 → p ≠ c * ld_dst + (i0 + r)) →
        D p = d p) := by
  obtain ⟨D1, h1eq, h1c, h1f⟩ :=
    colTiles_spec src ld_src ld_dst i0 8 z (le_refl 8) hld (N / 8) 0 d
  by_cases hrem : N - N / 8 * 8 > 0
  · obtain ⟨D, hDeq, hc, hf⟩ := transpose_mxn_8x8_spec src (i0 * ld_src + N / 8 * 8)
      ld_src D1 (N / 8 * 8 * ld_dst + i0) ld_dst 8 (N - N / 8 * 8) z (le_refl 8)
      (by omega) (by omega)
    refine ⟨D, ?_, ?_, ?_⟩
    · unfold fullBand
      rw [h1eq, Option.some_bind, if_pos hrem]
      exact hDeq
    · intro r c hr hc8
      by_cases hcfull : c < 8 * (N / 8)
      · have hstep : D (c * ld_dst + (i0 + r)) = D1 (c * ld_dst + (i0 + r)) := by
          apply hf
          intro j i hj hi heq
          rw [show N / 8 * 8 * ld_dst + i0 + j * ld_dst + i =
            (N / 8 * 8 + j) * ld_dst + (i0 + i) by ring] at heq
          have hinj := pos_inj (show i0 + r < ld_dst by omega)
            (show i0 + i < ld_dst by omega) heq
          omega
        rw [hstep]
        have hc1 := h1c r c hr (by omega)
        simpa only [Nat.zero_add] using hc1
      · obtain ⟨c2, rfl⟩ : ∃ c2, c = N / 8 * 8 + c2 := ⟨c - N / 8 * 8, by omega⟩
        have hc2lt : c2 < N - N / 8 * 8 := by omega
        rw [show (N / 8 * 8 + c2) * ld_dst + (i0 + r) =
            N / 8 * 8 * ld_dst + i0 + c2 * ld_dst + r by ring,
          show (i0 + r) * ld_src + (N / 8 * 8 + c2) =
            i0 * ld_src + N / 8 * 8 + r * ld_src + c2 by ring]
        exact hc r c2 hr hc2lt
    · intro p hp
      have hstep : D p = D1 p := by
        apply hf
        intro j i hj hi heq
        rw [show N / 8 * 8 * ld_dst + i0 + j * ld_dst + i =
          (N / 8 * 8 + j) * ld_dst + (i0 + i) by ring] at heq
        exact hp (N / 8 * 8 + j) i (by omega) hi heq
      rw [hstep]
      apply h1f
      intro c r hclt hr heq
      have hne := hp c r (by omega) hr
      rw [Nat.zero_add] at heq
      exact hne heq
  · refine ⟨D1, ?_, ?_, ?_⟩
    · unfold fullBand
      rw [h1eq, Option.some_bind, if_neg hrem]
    · intro r c hr hc8
      have hc1 := h1c r c hr (by omega)
      simpa only [Nat.zero_add] using hc1
    · intro p hp
      apply h1f
      intro c r hclt hr heq
      have hne := hp c r (by omega) hr
      rw [Nat.zero_add] at heq
      exact hne heq

/-- The outer band loop specification: `b` full bands starting at row `i0`
transpose rows `[i0, i0 + 8b)` against all `N` columns and touch nothing
else. -/
theorem rowBands_spec {α : Type} (src : Nat → α) (ld_src ld_dst N : Nat)
    (z : α) :
    ∀ b i0 d, ∀ hld : i0 + 8 * b ≤ ld_dst,
      ∃ D, rowBands src ld_src ld_dst N z i0 b d = some D ∧
        (∀ r c : Nat, r < 8 * b → c < N →
          D (c * ld_dst + (i0 + r)) = src ((i0 + r) * ld_src + c)) ∧
        (∀ p, (∀ c r : Nat, c < N → r < 8 * b → p ≠ c * ld_dst + (i0 + r)) →
          D p = d p) := by
  intro b
  induction b with
  | zero =>
    intro i0 d hld
    exact ⟨d, rfl, fun r c hr hc => absurd hr (by omega), fun p _ => rfl⟩
  | succ t ih =>
    intro i0 d hld
    obtain ⟨D1, h1eq, h1c, h1f⟩ := fullBand_spec src ld_src ld_dst N i0 z (by omega) d
    obtain ⟨D, hDeq, hc2, hf2⟩ := ih (i0 + 8) D1 (by omega)
    refine ⟨D, ?_, ?_, ?_⟩
    · show (fullBand src ld_src ld_dst N i0 z d).bind
        (rowBands src ld_src ld_dst N z (i0 + 8) t) = some D
      rw [h1eq, Option.some_bind]
      exact hDeq
    · intro r c hr hc
      by_cases hr8 : r < 8
      · have hstep : D (c * ld_dst + (i0 + r)) = D1 (c * ld_dst + (i0 + r)) := by
          apply hf2
          intro c2 r2 hc2lt hr2 heq
          have hinj := pos_inj (show i0 + r < ld_dst by omega)
            (show i0 + 8 + r2 < ld_dst by omega) heq
          omega
        rw [hstep]
        exact h1c r c hr8 hc
      · obtain ⟨r2, rfl⟩ : ∃ r2, r = 8 + r2 := ⟨r - 8, by omega⟩
        have hadd : i0 + (8 + r2) = i0 + 8 + r2 := by omega
        rw [hadd]
        exact hc2 r2 c (by omega) hc
    · intro p hp
      have hstep : D p = D1 p := by
        apply hf2
        intro c2 r2 hc2lt hr2
        have hne := hp c2 (8 + r2) hc2lt (by omega)
        have hadd : i0 + (8 + r2) = i0 + 8 + r2 := by omega
        rw [hadd] at hne
        exact hne
      rw [hstep]
      apply h1f
      intro c r hclt hr8
      exact hp c r hclt (by omega)

/-- C1: for every `M, N ≥ 1` (multiples of 8 or not) and strides
`ld_src ≥ N`, `ld_dst ≥ M`, with source and destination separate memories,
`transpose_mxn` succeeds and the destination element at `j * ld_dst + i`
equals the source element at `i * ld_src + j` for every `i < M`, `j < N`. -/
theorem C1_transpose_mxn_correct {α : Type} (src : Nat → α) (ld_src : Nat)
    (dst : Nat → α) (ld_dst : Nat) (M N : Nat) (z : α)
    (hM : 1 ≤ M) (hN : 1 ≤ N) (hls : N ≤ ld_src) (hld : M ≤ ld_dst) :
    ∃ D, transpose_mxn src ld_src dst ld_dst M N z = some D ∧
      ∀ i j : Nat, i < M → j < N → D (j * ld_dst + i) = src (i * ld_src + j) := by
  obtain ⟨D1, h1eq, h1c, h1f⟩ :=
    rowBands_spec src ld_src ld_dst N z (M / 8) 0 dst (by omega)
  by_cases hmrem : M - M / 8 * 8 > 0
  · obtain ⟨D2, h2eq, h2c, h2f⟩ := colTiles_spec src ld_src ld_dst (M / 8 * 8)
      (M - M / 8 * 8) z (by omega) (by omega) (N / 8) 0 D1
    obtain ⟨D, hDeq, hc3, hf3⟩ := transpose_mxn_8x8_spec src
      (M / 8 * 8 * ld_src + N / 8 * 8) ld_src D2 (N / 8 * 8 * ld_dst + M / 8 * 8)
      ld_dst (M - M / 8 * 8) (N - N / 8 * 8) z (by omega) (by omega) (by omega)
    refine ⟨D, ?_, ?_⟩
    · unfold transpose_mxn
      rw [h1eq, Option.some_bind, if_pos hmrem, h2eq, Option.some_bind]
      exact hDeq
    · intro i j hi hj
      by_cases hifull : i < 8 * (M / 8)
      · have hs3 : D (j * ld_dst + i) = D2 (j * ld_dst + i) := by
          apply hf3
          intro j2 i2 hj2 hi2 heq
          rw [show N / 8 * 8 * ld_dst + M / 8 * 8 + j2 * ld_dst + i2 =
            (N / 8 * 8 + j2) * ld_dst + (M / 8 * 8 + i2) by ring] at heq
          have hinj := pos_inj (show i < ld_dst by omega)
            (show M / 8 * 8 + i2 < ld_dst by omega) heq
          omega
        have hs2 : D2 (j * ld_dst + i) = D1 (j * ld_dst + i) := by
          apply h2f
          intro c2 r2 hc2 hr2 heq
          have hinj := pos_inj (show i < ld_dst by omega)
            (show M / 8 * 8 + r2 < ld_dst by omega) heq
          omega
        rw [hs3, hs2]
        simpa only [Nat.zero_add] using h1c i j hifull hj
      · obtain ⟨r, hir⟩ : ∃ r, i = M / 8 * 8 + r := ⟨i - M / 8 * 8, by omega⟩
        subst hir
        have hr : r < M - M / 8 * 8 := by omega
        by_cases hjfull : j < 8 * (N / 8)
        · have hs3 : D (j * ld_dst + (M / 8 * 8 + r)) =
              D2 (j * ld_dst + (M / 8 * 8 + r)) := by
            apply hf3
            intro j2 i2 hj2 hi2 heq
            rw [show N / 8 * 8 * ld_dst + M / 8 * 8 + j2 * ld_dst + i2 =
              (N / 8 * 8 + j2) * ld_dst + (M / 8 * 8 + i2) by ring] at heq
            have hinj := pos_inj
              (show M / 8 * 8 + r < ld_dst by omega)
              (show M / 8 * 8 + i2 < ld_dst by omega) heq
            omega
          rw [hs3]
          simpa only [Nat.zero_add] using h2c r j hr hjfull
        · obtain ⟨c, hjc⟩ : ∃ c, j = N / 8 * 8 + c := ⟨j - N / 8 * 8, by omega⟩
          subst hjc
          have hcr : c < N - N / 8 * 8 := by omega
          rw [show (N / 8 * 8 + c) * ld_dst + (M / 8 * 8 + r) =
              N / 8 * 8 * ld_dst + M / 8 * 8 + c * ld_dst + r by ring,
            show (M / 8 * 8 + r) * ld_src + (N / 8 * 8 + c) =
              M / 8 * 8 * ld_src + N / 8 * 8 + r * ld_src + c by ring]
          exact hc3 r c hr hcr
  · refine ⟨D1, ?_, ?_⟩
    · unfold transpose_mxn
      rw [h1eq, Option.some_bind, if_neg hmrem]
    · intro i j hi hj
      have hifull : i < 8 * (M / 8) := by omega
      simpa only [Nat.zero_add] using h1c i j hifull hj

/-- C1 witness: the 10×3 source with `src[i*3+j] = i*3+j` transposed into a
3×10 destination yields `dst[j*10+i] = i*3+j`. -/
theorem C1_transpose_mxn_correct_witness :
    1 ≤ 10 ∧ 1 ≤ 3 ∧ 3 ≤ 3 ∧ 10 ≤ 10 ∧
    (∃ D, transpose_mxn (fun p => p) 3 (fun _ => 0) 10 10 3 0 = some D ∧
      ∀ i j : Nat, i < 10 → j < 3 → D (j * 10 + i) = (fun p => p) (i * 3 + j)) :=
  ⟨by decide, by decide, by decide, by decide,
    C1_transpose_mxn_correct (fun p => p) 3 (fun _ => 0) 10 10 3 0
      (by decide) (by decide) (by decide) (by decide)⟩

end ATVec
